import Mathlib

/-!
Verification of the playlist path-rewriting engine of the
music-library-migration repository (src/playlist_fixer.py).

Strings are modelled as lists of characters (`List Char`), read from
Lean string literals via `strL`.  Python's case-insensitive regex
substitution `re.sub(re.escape(pat), rep, s, flags=re.IGNORECASE)` for a
non-empty literal pattern is modelled by `replaceAllCI` (leftmost,
non-overlapping scan, literal pattern, ASCII case folding via
`Char.toLower`, matching CPython's behaviour on the ASCII paths the tool
processes).  File reading in text mode is modelled by `readLines`:
universal-newline translation followed by splitting into lines that keep
their terminating newline, exactly what `readlines()` yields.  Writing on
a Linux host is the identity on the produced characters.
-/

/-- Characters of a Lean string literal, the `List Char` view used throughout. -/
def strL (s : String) : List Char := s.data

/-- Case-insensitive prefix test: does `pat` match the beginning of `s`
when both sides are lowered with ASCII `Char.toLower`?  Models matching a
`re.escape`d pattern under `re.IGNORECASE` at one position. -/
def startsWithCI : List Char → List Char → Bool
  | [], _ => true
  | _ :: _, [] => false
  | p :: ps, c :: cs => (p.toLower == c.toLower) && startsWithCI ps cs

/-- `pat` occurs case-insensitively in `s` at position `i`. -/
def occursAtCI (pat s : List Char) (i : Nat) : Prop :=
  startsWithCI pat (s.drop i) = true

instance (pat s : List Char) (i : Nat) : Decidable (occursAtCI pat s i) := by
  unfold occursAtCI
  infer_instance

/-- `m` is a case-insensitive match of `pat` (same length, equal after folding). -/
def matchesCI (m pat : List Char) : Prop :=
  m.length = pat.length ∧ startsWithCI pat m = true

/-- Fueled worker for `replaceAllCI`; the fuel only serves termination and
is irrelevant once it is at least the length of the scanned list. -/
def replCIF (pat rep : List Char) : Nat → List Char → List Char
  | _, [] => []
  | 0, s => s
  | fuel + 1, c :: cs =>
    if startsWithCI pat (c :: cs) then
      rep ++ replCIF pat rep fuel (cs.drop (pat.length - 1))
    else
      c :: replCIF pat rep fuel cs

/-- Model of `re.sub(re.escape(pat), rep, s, flags=re.IGNORECASE)` for a
non-empty pattern: scan left to right, replace each (non-overlapping)
case-insensitive occurrence of `pat` by `rep`, copy other characters. -/
def replaceAllCI (pat rep s : List Char) : List Char :=
  replCIF pat rep s.length s

/-- Model of Python `line.rstrip(CRLF)` with the two line-terminator
characters: remove every trailing carriage return or newline. -/
def rstripCRLF : List Char → List Char
  | [] => []
  | c :: cs =>
    let r := rstripCRLF cs
    if r.isEmpty && (c == '\r' || c == '\n') then [] else c :: r

/-- Model of Python `line.startswith("#")`. -/
def isDirective : List Char → Bool
  | [] => false
  | c :: _ => c == '#'

/-- Model of Python `s.replace(BSL, FSL)`: backslashes become forward slashes. -/
def normSlash (l : List Char) : List Char :=
  l.map (fun c => if c == '\\' then '/' else c)

/-- ASCII whitespace recognised by Python `str.strip()`. -/
def isPyWS (c : Char) : Bool :=
  c == ' ' || c == '\t' || c == '\n' || c == '\r' || c == '\x0b' || c == '\x0c'

/-- Model of Python `line.strip()` on ASCII text: drop whitespace at both ends. -/
def pyStrip (l : List Char) : List Char :=
  ((l.dropWhile isPyWS).reverse.dropWhile isPyWS).reverse

/-- Universal-newline translation performed by Python text-mode reading:
every CRLF pair and every lone CR becomes a single LF. -/
def univNewlines : List Char → List Char
  | [] => []
  | '\r' :: '\n' :: rest => '\n' :: univNewlines rest
  | '\r' :: rest => '\n' :: univNewlines rest
  | c :: rest => c :: univNewlines rest

/-- Split translated text into lines keeping each terminating newline,
as `readlines()` does; a final unterminated segment is kept if non-empty. -/
def splitKeepNL : List Char → List Char → List (List Char)
  | acc, [] => if acc.isEmpty then [] else [acc.reverse]
  | acc, '\n' :: rest => (acc.reverse ++ ['\n']) :: splitKeepNL [] rest
  | acc, c :: rest => splitKeepNL (c :: acc) rest

/-- Model of `open(path, "r").readlines()`: universal-newline translation,
then line splitting.  The decode step (UTF-8 with latin-1 fallback) is the
identity on the character sequence we model. -/
def readLines (content : List Char) : List (List Char) :=
  splitKeepNL [] (univNewlines content)

/-- Raw byte-level lines of a file (no newline translation), used to state
byte-identity of lines including their original terminators. -/
def rawLines (content : List Char) : List (List Char) :=
  splitKeepNL [] content

/-- Per-line transformation of `convert_single_playlist`
(src/playlist_fixer.py lines 323-348): directives pass through verbatim;
other lines are stripped of their terminator; blank lines become a single
canonical newline; path lines get backslash normalisation, then (for a
non-empty source path start `sp`) case-insensitive substitution of `sp` by
the target path start `tp`, a canonical newline, and count one track. -/
def processLine (sp tp line : List Char) : List Char × Nat :=
  if isDirective line then (line, 0)
  else
    let cl := rstripCRLF line
    if cl.isEmpty then (['\n'], 0)
    else
      let c2 := normSlash cl
      let c3 := if sp.isEmpty then c2 else replaceAllCI sp tp c2
      (c3 ++ ['\n'], 1)

/-- The whole line loop of `convert_single_playlist`: output lines in
order plus the track count. -/
def convertLines (sp tp : List Char) : List (List Char) → List (List Char) × Nat
  | [] => ([], 0)
  | line :: rest =>
    let p := processLine sp tp line
    let r := convertLines sp tp rest
    (p.1 :: r.1, p.2 + r.2)

/-- File-content view of a successful conversion: characters written to the
output file (on a Linux host, where writing is the identity) and the track
count returned. -/
def convertContent (sp tp content : List Char) : List Char × Nat :=
  let r := convertLines sp tp (readLines content)
  (r.1.flatten, r.2)

/-- Largest position `i ≤ bound` where `pat` occurs case-insensitively in
`s`; models `haystack.lower().rfind(pat)` for a lowercase `pat`. -/
def rfindLe (pat s : List Char) : Nat → Option Nat
  | 0 => if startsWithCI pat s then some 0 else none
  | i + 1 => if startsWithCI pat (s.drop (i + 1)) then some (i + 1) else rfindLe pat s i

/-- Model of Python `s.lower().rfind(pat)` returning an `Option`. -/
def rfindCI (pat s : List Char) : Option Nat :=
  rfindLe pat s s.length

/-- Accumulator worker for `splitSlash`. -/
def splitSlashAux : List Char → List Char → List (List Char)
  | acc, [] => [acc.reverse]
  | acc, '/' :: rest => acc.reverse :: splitSlashAux [] rest
  | acc, c :: rest => splitSlashAux (c :: acc) rest

/-- Model of Python `s.split(FSL)`: split at every slash, keeping empty
segments; the empty string yields one empty segment. -/
def splitSlash (l : List Char) : List (List Char) :=
  splitSlashAux [] l

/-- Model of joining path parts with a slash separator. -/
def joinSlash : List (List Char) → List Char
  | [] => []
  | [x] => x
  | x :: y :: rest => x ++ '/' :: joinSlash (y :: rest)

/-- Suggestion heuristic of `auto_detect_windows_prefix`
(src/playlist_fixer.py lines 181-195): normalise backslashes, then take
everything up to and including the last case-insensitive occurrence of
the segment between slashes named music; otherwise, with more than three
slash-separated parts, join all but the last three and add a trailing
slash; otherwise produce nothing (the empty suggestion). -/
def autoDetectSuggestion (sample : List Char) : List Char :=
  let n := normSlash sample
  match rfindCI (strL "/music/") n with
  | some i => n.take (i + 7)
  | none =>
    let parts := splitSlash n
    if parts.length > 3 then joinSlash (parts.take (parts.length - 3)) ++ ['/'] else []

/-- Filesystem state of the directory handed to `find_m3u_files`. -/
inductive DirState where
  | missing
  | notADir
  | dir (entries : List (List Char))

/-- Errors `os.listdir` can raise in the modelled states. -/
inductive ListErr where
  | notFound
  | notADirectory
deriving DecidableEq

/-- Model of `os.listdir`: raises on a missing path or a non-directory. -/
def listdirModel : DirState → Except ListErr (List (List Char))
  | DirState.missing => Except.error ListErr.notFound
  | DirState.notADir => Except.error ListErr.notADirectory
  | DirState.dir es => Except.ok es

/-- Case-sensitive playlist-extension test of `find_m3u_files`. -/
def hasPlaylistExt (f : List Char) : Bool :=
  List.isSuffixOf (strL ".m3u") f || List.isSuffixOf (strL ".m3u8") f

/-- Model of `find_m3u_files` (src/playlist_fixer.py lines 79-86): list the
directory, keep entries with a playlist extension; any `OSError`
(missing path, not a directory) is caught and yields the empty list. -/
def find_m3u_files (d : DirState) : List (List Char) :=
  match listdirModel d with
  | Except.error _ => []
  | Except.ok es => es.filter hasPlaylistExt

/-- Discovery contract as the specification words it (for comparison with
`find_m3u_files`): fail with `NotFound` when the directory does not exist,
with `NotADirectory` when the path is not a directory, and return the
(possibly empty) list of matching entries otherwise. -/
def findM3uSpec (d : DirState) : Except ListErr (List (List Char)) :=
  match d with
  | DirState.missing => Except.error ListErr.notFound
  | DirState.notADir => Except.error ListErr.notADirectory
  | DirState.dir es => Except.ok (es.filter hasPlaylistExt)

/-- Model of `validate_path_exists` (`os.path.exists`). -/
def validate_path_exists : DirState → Bool
  | DirState.missing => false
  | _ => true

/-- Model of `validate_is_directory` (`os.path.isdir`). -/
def validate_is_directory : DirState → Bool
  | DirState.dir _ => true
  | _ => false

/-- Per-file outcome of `convert_single_playlist`. -/
inductive ConvOutcome where
  | converted (tracks : Nat)
  | failed (msg : List Char)
deriving DecidableEq

/-- Model of `convert_single_playlist` (src/playlist_fixer.py lines
305-359) with its environment made explicit: `readRes` is the outcome of
the read phase (an exception message, or the file content), and
`writeCap` is how many of the produced lines the write phase manages to
write before the environment raises.  The output file is opened (and so
created or truncated) only after the read phase succeeds; an interrupted
write leaves exactly the lines written so far in the output location. -/
def convert_single_playlist (sp tp : List Char)
    (readRes : Except (List Char) (List Char)) (writeCap : Nat) :
    ConvOutcome × Option (List Char) :=
  match readRes with
  | Except.error msg => (ConvOutcome.failed msg, none)
  | Except.ok content =>
    let r := convertLines sp tp (readLines content)
    if r.1.length ≤ writeCap then (ConvOutcome.converted r.2, some r.1.flatten)
    else (ConvOutcome.failed (strL "write interrupted"), some ((r.1.take writeCap).flatten))

/-- State threaded through `fix_playlists_batch`: counters, the ordered
error list, and the contents of the output directory (filename to file
content). -/
structure BatchState where
  succ : Nat
  err : Nat
  errors : List ((List Char) × List Char)
  out : (List Char) → Option (List Char)

/-- One iteration of the batch loop (src/playlist_fixer.py lines 391-409):
a file whose read fails is recorded as a filename-reason pair; a readable
file is converted and written into the output directory under its own
name. -/
def batchStep (sp tp : List Char) (st : BatchState)
    (entry : (List Char) × Except (List Char) (List Char)) : BatchState :=
  match entry.2 with
  | Except.error msg =>
    { st with err := st.err + 1, errors := st.errors ++ [(entry.1, msg)] }
  | Except.ok content =>
    { st with
      succ := st.succ + 1
      out := fun n => if n = entry.1 then some (convertContent sp tp content).1 else st.out n }

/-- Fold of `batchStep` over the discovered files in discovery order. -/
def runBatch (sp tp : List Char) :
    List ((List Char) × Except (List Char) (List Char)) → BatchState → BatchState
  | [], st => st
  | e :: rest, st => runBatch sp tp rest (batchStep sp tp st e)

/-- Model of `fix_playlists_batch` (src/playlist_fixer.py lines 362-411)
after the output directory has been created: process every discovered
file in order against an initial output-directory state `out0`, returning
counters, the ordered error list and the final output directory. -/
def fix_playlists_batch (sp tp : List Char)
    (files : List ((List Char) × Except (List Char) (List Char)))
    (out0 : (List Char) → Option (List Char)) : BatchState :=
  runBatch sp tp files { succ := 0, err := 0, errors := [], out := out0 }

/-- Number of files of a batch whose read phase succeeds. -/
def countOk (files : List ((List Char) × Except (List Char) (List Char))) : Nat :=
  files.countP (fun e => match e.2 with | Except.ok _ => true | _ => false)

/-- Number of files of a batch whose read phase fails. -/
def countErr (files : List ((List Char) × Except (List Char) (List Char))) : Nat :=
  files.countP (fun e => match e.2 with | Except.error _ => true | _ => false)

/-- The filename-reason pairs of the failing files, in processing order. -/
def errSpec (files : List ((List Char) × Except (List Char) (List Char))) :
    List ((List Char) × List Char) :=
  files.filterMap (fun e => match e.2 with | Except.error m => some (e.1, m) | _ => none)

/-- Sample-line transformation of `preview_conversion`
(src/playlist_fixer.py lines 274-284): fully strip the line; skip it when
the stripped form is empty or a directive; otherwise record the stripped
original and its slash-normalised, substituted form. -/
def previewLine (sp tp line : List Char) : Option (List Char × List Char) :=
  let s := pyStrip line
  if s.isEmpty || isDirective s then none
  else some (s, replaceAllCI sp tp (normSlash s))

/-! Helper lemmas about the case-insensitive substitution. -/

theorem startsWithCI_le_length : ∀ pat s : List Char, startsWithCI pat s = true → pat.length ≤ s.length := by
  intro pat
  induction pat with
  | nil => intro s _; simp
  | cons p ps ih =>
    intro s h
    cases s with
    | nil => simp [startsWithCI] at h
    | cons c cs =>
      simp only [startsWithCI, Bool.and_eq_true] at h
      have := ih cs h.2
      simp only [List.length_cons]
      omega

theorem startsWithCI_append_right : ∀ pat m b : List Char, startsWithCI pat m = true → startsWithCI pat (m ++ b) = true := by
  intro pat
  induction pat with
  | nil => intro m b _; simp [startsWithCI]
  | cons p ps ih =>
    intro m b h
    cases m with
    | nil => simp [startsWithCI] at h
    | cons c cs =>
      simp only [startsWithCI, Bool.and_eq_true] at h
      simp only [List.cons_append, startsWithCI, Bool.and_eq_true]
      exact ⟨h.1, ih cs b h.2⟩

theorem replCIF_congr (pat rep : List Char) : ∀ f g s, s.length ≤ f → s.length ≤ g → replCIF pat rep f s = replCIF pat rep g s := by
  intro f
  induction f with
  | zero =>
    intro g s hf _
    have hs : s = [] := List.eq_nil_of_length_eq_zero (Nat.le_zero.mp hf)
    subst hs
    cases g <;> rfl
  | succ f ih =>
    intro g s hf hg
    cases s with
    | nil => cases g <;> rfl
    | cons c cs =>
      cases g with
      | zero => simp at hg
      | succ g =>
        simp only [List.length_cons] at hf hg
        simp only [replCIF]
        by_cases h : startsWithCI pat (c :: cs) = true
        · simp only [h, if_true]
          have hd : (cs.drop (pat.length - 1)).length ≤ cs.length := by
            simp [List.length_drop]
          exact congrArg (rep ++ ·) (ih g _ (by omega) (by omega))
        · simp only [h, if_false]
          exact congrArg (c :: ·) (ih g cs (by omega) (by omega))

theorem replaceAllCI_cons_pos (pat rep : List Char) (c : Char) (cs : List Char)
    (h : startsWithCI pat (c :: cs) = true) :
    replaceAllCI pat rep (c :: cs) = rep ++ replaceAllCI pat rep (cs.drop (pat.length - 1)) := by
  unfold replaceAllCI
  simp only [List.length_cons, replCIF, h, if_true]
  refine congrArg (rep ++ ·) (replCIF_congr pat rep _ _ _ ?_ ?_)
  · simp [List.length_drop]
  · exact Nat.le_refl _

theorem replaceAllCI_cons_neg (pat rep : List Char) (c : Char) (cs : List Char)
    (h : startsWithCI pat (c :: cs) = false) :
    replaceAllCI pat rep (c :: cs) = c :: replaceAllCI pat rep cs := by
  unfold replaceAllCI
  simp only [List.length_cons, replCIF, h, if_false, Bool.false_eq_true]

theorem occursAtCI_zero (pat s : List Char) : occursAtCI pat s 0 ↔ startsWithCI pat s = true := by
  simp [occursAtCI]

theorem occursAtCI_cons_succ (pat : List Char) (c : Char) (cs : List Char) (j : Nat) :
    occursAtCI pat (c :: cs) (j + 1) ↔ occursAtCI pat cs j := by
  simp [occursAtCI, List.drop_succ_cons]

theorem replaceAllCI_of_no_occ (pat rep : List Char) : ∀ s, (∀ j, j ≤ s.length → ¬ occursAtCI pat s j) → replaceAllCI pat rep s = s := by
  intro s
  induction s with
  | nil => intro _; rfl
  | cons c cs ih =>
    intro h
    have h0 : startsWithCI pat (c :: cs) = false := by
      have h' := h 0 (Nat.zero_le _)
      rw [occursAtCI_zero] at h'
      simpa using h'
    rw [replaceAllCI_cons_neg pat rep c cs h0]
    refine congrArg (c :: ·) (ih ?_)
    intro j hj hocc
    exact h (j + 1) (by simpa using Nat.succ_le_succ hj) ((occursAtCI_cons_succ pat c cs j).mpr hocc)

theorem replaceAllCI_decomp (pat rep : List Char) : ∀ a m b, pat ≠ [] → matchesCI m pat →
    (∀ j, j < a.length → ¬ occursAtCI pat (a ++ m ++ b) j) →
    replaceAllCI pat rep (a ++ m ++ b) = a ++ rep ++ replaceAllCI pat rep b := by
  intro a
  induction a with
  | nil =>
    intro m b hpat hm _
    simp only [List.nil_append]
    obtain ⟨hlen, hsw⟩ := hm
    cases m with
    | nil =>
      exfalso
      cases pat with
      | nil => exact hpat rfl
      | cons p ps => simp at hlen
    | cons x m' =>
      have hsw' : startsWithCI pat (x :: m' ++ b) = true :=
        startsWithCI_append_right pat (x :: m') b hsw
      rw [List.cons_append, replaceAllCI_cons_pos pat rep x (m' ++ b) (by simpa using hsw')]
      have hdrop : (m' ++ b).drop (pat.length - 1) = b := by
        have : pat.length - 1 = m'.length := by
          simp only [List.length_cons] at hlen
          omega
        rw [this, List.drop_left]
      rw [hdrop]
  | cons c a' ih =>
    intro m b hpat hm h
    have h0 : startsWithCI pat (c :: (a' ++ m ++ b)) = false := by
      have hno := h 0 (by simp)
      rw [show (c :: a') ++ m ++ b = c :: (a' ++ m ++ b) by simp, occursAtCI_zero] at hno
      cases hb : startsWithCI pat (c :: (a' ++ m ++ b))
      · rfl
      · exact absurd hb hno
    have step : replaceAllCI pat rep ((c :: a') ++ m ++ b)
        = c :: replaceAllCI pat rep (a' ++ m ++ b) := by
      rw [show (c :: a') ++ m ++ b = c :: (a' ++ m ++ b) by simp]
      exact replaceAllCI_cons_neg pat rep c _ h0
    rw [step, ih m b hpat hm ?_]
    · simp
    · intro j hj hocc
      refine h (j + 1) (by simp; omega) ?_
      rw [show (c :: a') ++ m ++ b = c :: (a' ++ m ++ b) by simp]
      exact (occursAtCI_cons_succ pat c _ j).mpr hocc

/-! Helper lemmas about the last-occurrence search. -/

theorem rfindLe_eq_some (pat s : List Char) : ∀ n i, rfindLe pat s n = some i →
    occursAtCI pat s i ∧ i ≤ n ∧ ∀ j, j ≤ n → occursAtCI pat s j → j ≤ i := by
  intro n
  induction n with
  | zero =>
    intro i h
    simp only [rfindLe] at h
    by_cases hs : startsWithCI pat (s.drop 0) = true
    · rw [if_pos (by simpa using hs)] at h
      obtain rfl : 0 = i := Option.some.inj h
      exact ⟨hs, Nat.le_refl _, fun j hj _ => hj⟩
    · rw [if_neg (by simpa using hs)] at h
      exact absurd h (Option.noConfusion)
  | succ n ih =>
    intro i h
    rw [rfindLe] at h
    by_cases hs : startsWithCI pat (s.drop (n + 1)) = true
    · rw [if_pos hs] at h
      obtain rfl : n + 1 = i := Option.some.inj h
      exact ⟨hs, Nat.le_refl _, fun j hj _ => hj⟩
    · rw [if_neg hs] at h
      obtain ⟨ho, hle, hmax⟩ := ih i h
      refine ⟨ho, Nat.le_succ_of_le hle, fun j hj hocc => ?_⟩
      rcases Nat.lt_or_ge j (n + 1) with hlt | hge
      · exact hmax j (Nat.lt_succ_iff.mp hlt) hocc
      · exact absurd hocc (by
          have : j = n + 1 := Nat.le_antisymm hj hge
          subst this
          exact hs)

theorem rfindLe_eq_none (pat s : List Char) : ∀ n, rfindLe pat s n = none →
    ∀ j, j ≤ n → ¬ occursAtCI pat s j := by
  intro n
  induction n with
  | zero =>
    intro h j hj
    obtain rfl : j = 0 := Nat.le_zero.mp hj
    simp only [rfindLe] at h
    by_cases hs : startsWithCI pat (s.drop 0) = true
    · rw [if_pos (by simpa using hs)] at h; exact absurd h (Option.noConfusion)
    · intro hocc; exact hs hocc
  | succ n ih =>
    intro h j hj
    rw [rfindLe] at h
    by_cases hs : startsWithCI pat (s.drop (n + 1)) = true
    · rw [if_pos hs] at h; exact absurd h (Option.noConfusion)
    · rw [if_neg hs] at h
      rcases Nat.lt_or_ge j (n + 1) with hlt | hge
      · exact ih h j (Nat.lt_succ_iff.mp hlt)
      · have : j = n + 1 := Nat.le_antisymm hj hge
        subst this
        exact fun hocc => hs hocc

theorem rfindLe_of_occ (pat s : List Char) : ∀ n i, i ≤ n → occursAtCI pat s i →
    ∃ k, rfindLe pat s n = some k := by
  intro n
  induction n with
  | zero =>
    intro i hi hocc
    obtain rfl : i = 0 := Nat.le_zero.mp hi
    refine ⟨0, ?_⟩
    simp only [rfindLe]
    rw [if_pos (by simpa using hocc)]
  | succ n ih =>
    intro i hi hocc
    rw [rfindLe]
    by_cases hs : startsWithCI pat (s.drop (n + 1)) = true
    · exact ⟨n + 1, by rw [if_pos hs]⟩
    · rcases Nat.lt_or_ge i (n + 1) with hlt | hge
      · obtain ⟨k, hk⟩ := ih i (Nat.lt_succ_iff.mp hlt) hocc
        exact ⟨k, by rw [if_neg hs]; exact hk⟩
      · have : i = n + 1 := Nat.le_antisymm hi hge
        subst this
        exact absurd hocc hs

/-! Helper lemmas about line shapes. -/

theorem isDirective_rstripCRLF (l : List Char) (h1 : isDirective l = false)
    (h2 : rstripCRLF l ≠ []) : isDirective (rstripCRLF l) = false := by
  cases l with
  | nil => simp [rstripCRLF] at h2
  | cons c cs =>
    simp only [rstripCRLF] at h2 ⊢
    cases hc : ((rstripCRLF cs).isEmpty && (c == '\r' || c == '\n')) with
    | true =>
      simp only [hc, if_true] at h2
      exact absurd rfl h2
    | false =>
      simp only [hc, if_false] at h2 ⊢
      simp only [isDirective] at h1 ⊢
      exact h1

/-! Helper lemmas about the batch driver fold. -/

theorem runBatch_succ (sp tp : List Char) :
    ∀ files st, (runBatch sp tp files st).succ = st.succ + countOk files := by
  intro files
  induction files with
  | nil => intro st; simp [runBatch, countOk]
  | cons e rest ih =>
    intro st
    obtain ⟨name, res⟩ := e
    cases res with
    | error m =>
      rw [runBatch, ih]
      simp [batchStep, countOk, List.countP_cons]
    | ok content =>
      rw [runBatch, ih]
      simp only [batchStep, countOk, List.countP_cons]
      simp
      omega

theorem runBatch_err (sp tp : List Char) :
    ∀ files st, (runBatch sp tp files st).err = st.err + countErr files := by
  intro files
  induction files with
  | nil => intro st; simp [runBatch, countErr]
  | cons e rest ih =>
    intro st
    obtain ⟨name, res⟩ := e
    cases res with
    | error m =>
      rw [runBatch, ih]
      simp only [batchStep, countErr, List.countP_cons]
      simp
      omega
    | ok content =>
      rw [runBatch, ih]
      simp [batchStep, countErr, List.countP_cons]

theorem runBatch_errors (sp tp : List Char) :
    ∀ files st, (runBatch sp tp files st).errors = st.errors ++ errSpec files := by
  intro files
  induction files with
  | nil => intro st; simp [runBatch, errSpec]
  | cons e rest ih =>
    intro st
    obtain ⟨name, res⟩ := e
    cases res with
    | error m =>
      rw [runBatch, ih]
      simp [batchStep, errSpec, List.filterMap_cons]
    | ok content =>
      rw [runBatch, ih]
      simp [batchStep, errSpec, List.filterMap_cons]

theorem runBatch_out_not_written (sp tp : List Char) :
    ∀ files st name, (∀ c, ¬ ((name, Except.ok c) ∈ files)) →
      (runBatch sp tp files st).out name = st.out name := by
  intro files
  induction files with
  | nil => intro st name _; rfl
  | cons e rest ih =>
    intro st name h
    obtain ⟨n1, res⟩ := e
    rw [runBatch]
    have hrest : ∀ c, ¬ ((name, Except.ok c) ∈ rest) := by
      intro c hc
      exact h c (List.mem_cons_of_mem _ hc)
    rw [ih _ name hrest]
    cases res with
    | error m => rfl
    | ok content =>
      simp only [batchStep]
      have hne : ¬ (name = n1) := by
        intro he
        subst he
        exact h content (List.mem_cons_self _ _)
      rw [if_neg hne]

theorem runBatch_out_indep (sp tp : List Char) :
    ∀ files st st' name, (∃ c, (name, Except.ok c) ∈ files) →
      (runBatch sp tp files st).out name = (runBatch sp tp files st').out name := by
  intro files
  induction files with
  | nil =>
    intro st st' name h
    obtain ⟨c, hc⟩ := h
    exact absurd hc (List.not_mem_nil _)
  | cons e rest ih =>
    intro st st' name h
    obtain ⟨n1, res⟩ := e
    by_cases hrest : ∃ c, (name, Except.ok c) ∈ rest
    · rw [runBatch, runBatch]
      exact ih _ _ name hrest
    · obtain ⟨c, hc⟩ := h
      rcases List.mem_cons.mp hc with heq | hmem
      · have hn : name = n1 ∧ res = Except.ok c := by
          have h1 := congrArg Prod.fst heq
          have h2 := congrArg Prod.snd heq
          simp at h1 h2
          exact ⟨h1, h2.symm⟩
        obtain ⟨hn1, hres⟩ := hn
        subst hn1
        subst hres
        rw [runBatch, runBatch]
        have hnot : ∀ c', ¬ ((name, Except.ok c') ∈ rest) := by
          intro c' hc'
          exact hrest ⟨c', hc'⟩
        rw [runBatch_out_not_written sp tp rest _ name hnot,
            runBatch_out_not_written sp tp rest _ name hnot]
        simp [batchStep]
      · exact absurd ⟨c, hmem⟩ hrest

theorem countOk_add_countErr (files : List ((List Char) × Except (List Char) (List Char))) :
    countOk files + countErr files = files.length := by
  induction files with
  | nil => simp [countOk, countErr]
  | cons e rest ih =>
    obtain ⟨name, res⟩ := e
    cases res with
    | error m =>
      simp only [countOk, countErr, List.countP_cons, List.length_cons] at *
      simp at *
      omega
    | ok content =>
      simp only [countOk, countErr, List.countP_cons, List.length_cons] at *
      simp at *
      omega

theorem errSpec_length (files : List ((List Char) × Except (List Char) (List Char))) :
    (errSpec files).length = countErr files := by
  induction files with
  | nil => simp [errSpec, countErr]
  | cons e rest ih =>
    obtain ⟨name, res⟩ := e
    cases res with
    | error m =>
      simp only [errSpec, countErr, List.filterMap_cons, List.countP_cons] at *
      simp at *
      omega
    | ok content =>
      simp only [errSpec, countErr, List.filterMap_cons, List.countP_cons] at *
      simp at *
      omega

theorem countOk_append (xs ys : List ((List Char) × Except (List Char) (List Char))) :
    countOk (xs ++ ys) = countOk xs + countOk ys := by
  simp [countOk, List.countP_append]

theorem countErr_append (xs ys : List ((List Char) × Except (List Char) (List Char))) :
    countErr (xs ++ ys) = countErr xs + countErr ys := by
  simp [countErr, List.countP_append]

theorem errSpec_append (xs ys : List ((List Char) × Except (List Char) (List Char))) :
    errSpec (xs ++ ys) = errSpec xs ++ errSpec ys := by
  simp [errSpec, List.filterMap_append]

/-! Claim theorems. -/

set_option maxRecDepth 100000 in
/-- Claim C1: for every non-directive, non-blank input line and every
non-empty source path start, the rewrite engine first normalises
backslashes to forward slashes and then replaces every case-insensitive
(leftmost, non-overlapping) occurrence of the source path start anywhere
in the line with the exact configured target path start, leaving the rest
of the line unchanged; on the scenario playlist the directive passes
through, the path line rewrites to the relative path and the track count
is 1. -/
theorem C1_rewrite_engine :
    (∀ sp tp line : List Char, sp ≠ [] → isDirective line = false → rstripCRLF line ≠ [] →
        processLine sp tp line = (replaceAllCI sp tp (normSlash (rstripCRLF line)) ++ ['\n'], 1))
    ∧ (∀ sp rep a m b : List Char, sp ≠ [] → matchesCI m sp →
        (∀ j, j < a.length → ¬ occursAtCI sp (a ++ m ++ b) j) →
        replaceAllCI sp rep (a ++ m ++ b) = a ++ rep ++ replaceAllCI sp rep b)
    ∧ (∀ sp rep s : List Char, (∀ j, j ≤ s.length → ¬ occursAtCI sp s j) →
        replaceAllCI sp rep s = s)
    ∧ convertContent (strL "C:/Users/Tom/Music/iTunes/iTunes Media/Music/") (strL "../")
        (strL "#EXTINF:180,Artist - Song\nC:\\Users\\Tom\\Music\\iTunes\\iTunes Media\\Music\\Rock\\song.mp3\n")
        = (strL "#EXTINF:180,Artist - Song\n../Rock/song.mp3\n", 1)
    ∧ replaceAllCI (strL "c:/m/") (strL "../") (strL "x C:/M/a c:/m/b") = strL "x ../a ../b" := by
  refine ⟨?_, ?_, ?_, ?_, ?_⟩
  · intro sp tp line h1 h2 h3
    have hsp : sp.isEmpty = false := by
      cases sp with
      | nil => exact absurd rfl h1
      | cons a l => rfl
    have hb : (rstripCRLF line).isEmpty = false := by
      cases hr : rstripCRLF line with
      | nil => exact absurd hr h3
      | cons a l => rfl
    simp [processLine, h2, hb, hsp]
  · exact fun sp rep a m b h1 h2 h3 => replaceAllCI_decomp sp rep a m b h1 h2 h3
  · exact fun sp rep s h => replaceAllCI_of_no_occ sp rep s h
  · decide
  · decide

/-- Witness for C1: a concrete non-directive, non-blank line rewritten by
the engine. -/
theorem C1_rewrite_engine_w :
    processLine (strL "C:/") (strL "../") (strL "C:/a.mp3\n")
      = (replaceAllCI (strL "C:/") (strL "../")
          (normSlash (rstripCRLF (strL "C:/a.mp3\n"))) ++ ['\n'], 1) :=
  C1_rewrite_engine.1 (strL "C:/") (strL "../") (strL "C:/a.mp3\n")
    (by decide) (by decide) (by decide)

/-- Claim C2 counterexample: a directive line with a CRLF terminator is
not byte-identical in the output, because text-mode reading translates the
terminator; the code emits it with a bare LF. -/
theorem C2_directive_bytes_cex :
    rawLines (strL "#A\r\n") = [strL "#A\r\n"]
    ∧ isDirective (strL "#A\r\n") = true
    ∧ (convertContent (strL "C:/") (strL "../") (strL "#A\r\n")).1 = strL "#A\n"
    ∧ rawLines ((convertContent (strL "C:/") (strL "../") (strL "#A\r\n")).1) = [strL "#A\n"]
    ∧ strL "#A\n" ≠ strL "#A\r\n" := by
  decide

/-- Claim C2 (amended): every decoded input line (after the read layer's
universal-newline translation) that begins with the directive marker
appears unchanged, at the same ordinal position, among the output lines;
it is never slash-normalised or substituted.  Byte-identity with the raw
input holds exactly when the directive's original terminator is already a
bare LF. -/
theorem C2_directive_lines :
    ∀ (sp tp : List Char) (lines : List (List Char)) (i : Nat) (line : List Char),
      lines.get? i = some line → isDirective line = true →
      (convertLines sp tp lines).1.get? i = some line := by
  intro sp tp lines
  induction lines with
  | nil =>
    intro i line h _
    simp at h
  | cons l rest ih =>
    intro i line h hdir
    cases i with
    | zero =>
      simp only [List.get?] at h
      obtain rfl : l = line := Option.some.inj h
      simp only [convertLines, List.get?]
      simp [processLine, hdir]
    | succ i =>
      simp only [List.get?] at h
      simp only [convertLines, List.get?]
      exact ih i line h hdir

/-- Witness for C2: a concrete directive line kept verbatim at its
position. -/
theorem C2_directive_lines_w :
    (convertLines (strL "C:/") (strL "../") [strL "#EXTM3U\n", strL "C:/a.mp3\n"]).1.get? 0
      = some (strL "#EXTM3U\n") :=
  C2_directive_lines (strL "C:/") (strL "../") [strL "#EXTM3U\n", strL "C:/a.mp3\n"] 0
    (strL "#EXTM3U\n") (by decide) (by decide)

/-- Claim C3: the track count returned for a converted file equals the
number of input lines that are neither directives nor blank after
stripping line terminators; a file of only directives and blank lines
yields track count 0. -/
theorem C3_track_count :
    (∀ (sp tp : List Char) (lines : List (List Char)),
        (convertLines sp tp lines).2
          = lines.countP (fun l => !(isDirective l) && !(rstripCRLF l).isEmpty))
    ∧ (convertContent (strL "C:/A/") (strL "../") (strL "#EXTM3U\n\n#EXTINF:1,x\n")).2 = 0 := by
  constructor
  · intro sp tp lines
    induction lines with
    | nil => simp [convertLines]
    | cons l rest ih =>
      simp only [convertLines, List.countP_cons]
      rw [ih]
      by_cases hd : isDirective l = true
      · simp [processLine, hd]
      · have hd' : isDirective l = false := by simpa using hd
        by_cases hb : (rstripCRLF l).isEmpty = true
        · simp [processLine, hd', hb]
        · have hb' : (rstripCRLF l).isEmpty = false := by simpa using hb
          simp [processLine, hd', hb']
          omega
  · decide

/-- Claim C4: prefix detection works on the slash-normalised sample; if
the marker segment occurs case-insensitively, the suggestion is everything
up to and including its last occurrence; otherwise with more than three
slash-separated parts the suggestion drops the last three parts and adds a
trailing slash; otherwise there is no suggestion; the documented iTunes
sample path yields the documented suggestion. -/
theorem C4_detect :
    (∀ (s : List Char) (i : Nat), occursAtCI (strL "/music/") (normSlash s) i →
        (∀ j, j ≤ (normSlash s).length → occursAtCI (strL "/music/") (normSlash s) j → j ≤ i) →
        autoDetectSuggestion s = (normSlash s).take (i + 7))
    ∧ (∀ s : List Char,
        (∀ j, j ≤ (normSlash s).length → ¬ occursAtCI (strL "/music/") (normSlash s) j) →
        3 < (splitSlash (normSlash s)).length →
        autoDetectSuggestion s
          = joinSlash ((splitSlash (normSlash s)).take ((splitSlash (normSlash s)).length - 3))
            ++ ['/'])
    ∧ (∀ s : List Char,
        (∀ j, j ≤ (normSlash s).length → ¬ occursAtCI (strL "/music/") (normSlash s) j) →
        (splitSlash (normSlash s)).length ≤ 3 →
        autoDetectSuggestion s = [])
    ∧ autoDetectSuggestion
        (strL "C:/Users/Tom/Music/iTunes/iTunes Media/Music/Beatles/Abbey Road/01 Come Together.mp3")
        = strL "C:/Users/Tom/Music/iTunes/iTunes Media/Music/" := by
  refine ⟨?_, ?_, ?_, ?_⟩
  · intro s i hocc hmax
    have hlen : i ≤ (normSlash s).length := by
      by_contra hgt
      push_neg at hgt
      have hdz : (normSlash s).drop i = [] := List.drop_eq_nil_of_le (Nat.le_of_lt hgt)
      unfold occursAtCI at hocc
      rw [hdz] at hocc
      exact absurd hocc (by decide)
    obtain ⟨k, hk⟩ :=
      rfindLe_of_occ (strL "/music/") (normSlash s) (normSlash s).length i hlen hocc
    obtain ⟨hok, hkle, hkmax⟩ := rfindLe_eq_some _ _ _ _ hk
    have hik : i ≤ k := hkmax i hlen hocc
    have hki : k ≤ i := hmax k hkle hok
    obtain rfl : k = i := Nat.le_antisymm hki hik
    simp only [autoDetectSuggestion, rfindCI, hk]
  · intro s hno hlen
    have hnone : rfindLe (strL "/music/") (normSlash s) (normSlash s).length = none := by
      cases hf : rfindLe (strL "/music/") (normSlash s) (normSlash s).length with
      | none => rfl
      | some k =>
        obtain ⟨hok, hkle, _⟩ := rfindLe_eq_some _ _ _ _ hf
        exact absurd hok (hno k hkle)
    simp only [autoDetectSuggestion, rfindCI, hnone]
    rw [if_pos hlen]
  · intro s hno hlen
    have hnone : rfindLe (strL "/music/") (normSlash s) (normSlash s).length = none := by
      cases hf : rfindLe (strL "/music/") (normSlash s) (normSlash s).length with
      | none => rfl
      | some k =>
        obtain ⟨hok, hkle, _⟩ := rfindLe_eq_some _ _ _ _ hf
        exact absurd hok (hno k hkle)
    simp only [autoDetectSuggestion, rfindCI, hnone]
    rw [if_neg (Nat.not_lt.mpr hlen)]
  · decide

/-- Witness for C4: the marker heuristic applied to a short concrete
sample path. -/
theorem C4_detect_w :
    autoDetectSuggestion (strL "A:/Music/x.mp3")
      = (normSlash (strL "A:/Music/x.mp3")).take (2 + 7) :=
  C4_detect.1 (strL "A:/Music/x.mp3") 2 (by decide) (by decide)

/-- Claim C5 counterexample: with content of two path lines and a write
environment that raises after one line, the conversion returns a failure
yet the output location holds a non-empty partial file that differs from
the full rewrite — conversion is not atomic on write failure. -/
theorem C5_atomicity_cex :
    (convert_single_playlist (strL "C:/") (strL "../")
        (Except.ok (strL "C:/a.mp3\nC:/b.mp3\n")) 1).1
      = ConvOutcome.failed (strL "write interrupted")
    ∧ (convert_single_playlist (strL "C:/") (strL "../")
        (Except.ok (strL "C:/a.mp3\nC:/b.mp3\n")) 1).2
      = some (strL "../a.mp3\n")
    ∧ some (strL "../a.mp3\n") ≠ (none : Option (List Char))
    ∧ strL "../a.mp3\n"
      ≠ (convertContent (strL "C:/") (strL "../") (strL "C:/a.mp3\nC:/b.mp3\n")).1 := by
  decide

/-- Claim C5 (amended): conversion is atomic with respect to read
failures — if reading fails, nothing is written and a failure is
returned; when the write completes, the file holds the full rewrite and
the track count is returned; but a failure in mid-write leaves a
truncated partial rewrite at the output location. -/
theorem C5_atomic_amended :
    (∀ (sp tp msg : List Char) (cap : Nat),
        convert_single_playlist sp tp (Except.error msg) cap = (ConvOutcome.failed msg, none))
    ∧ (∀ (sp tp content : List Char) (cap : Nat),
        (convertLines sp tp (readLines content)).1.length ≤ cap →
        convert_single_playlist sp tp (Except.ok content) cap
          = (ConvOutcome.converted (convertContent sp tp content).2,
             some (convertContent sp tp content).1))
    ∧ (∀ (sp tp content : List Char) (cap : Nat),
        cap < (convertLines sp tp (readLines content)).1.length →
        convert_single_playlist sp tp (Except.ok content) cap
          = (ConvOutcome.failed (strL "write interrupted"),
             some (((convertLines sp tp (readLines content)).1.take cap).flatten))) := by
  refine ⟨?_, ?_, ?_⟩
  · intro sp tp msg cap
    rfl
  · intro sp tp content cap h
    simp only [convert_single_playlist, convertContent]
    rw [if_pos h]
  · intro sp tp content cap h
    simp only [convert_single_playlist]
    rw [if_neg (Nat.not_le.mpr h)]

/-- Witness for C5: a fully successful write of a one-line playlist. -/
theorem C5_atomic_amended_w :
    convert_single_playlist (strL "C:/") (strL "../") (Except.ok (strL "C:/a.mp3\n")) 5
      = (ConvOutcome.converted (convertContent (strL "C:/") (strL "../") (strL "C:/a.mp3\n")).2,
         some (convertContent (strL "C:/") (strL "../") (strL "C:/a.mp3\n")).1) :=
  C5_atomic_amended.2.1 (strL "C:/") (strL "../") (strL "C:/a.mp3\n") 5 (by decide)

/-- Claim C6 counterexample: the specification-side discovery contract
fails with NotFound and NotADirectory, but `find_m3u_files` catches the
OS errors and returns the empty list in both states — indistinguishable
from an existing empty directory. -/
theorem C6_discovery_cex :
    findM3uSpec DirState.missing = Except.error ListErr.notFound
    ∧ findM3uSpec DirState.notADir = Except.error ListErr.notADirectory
    ∧ find_m3u_files DirState.missing = []
    ∧ find_m3u_files DirState.notADir = []
    ∧ find_m3u_files DirState.missing = find_m3u_files (DirState.dir []) :=
  ⟨rfl, rfl, rfl, rfl, rfl⟩

/-- Claim C6 (amended): `find_m3u_files` itself never fails — it returns
the empty list both when the directory is missing and when the path is
not a directory (the OSError is caught), as well as when no entry has a
playlist extension; an existing directory yields exactly the entries with
a playlist extension; the missing and not-a-directory states are instead
distinguished by the caller through `validate_path_exists` and
`validate_is_directory` before discovery. -/
theorem C6_discovery_amended :
    find_m3u_files DirState.missing = []
    ∧ find_m3u_files DirState.notADir = []
    ∧ (∀ es, find_m3u_files (DirState.dir es) = es.filter hasPlaylistExt)
    ∧ find_m3u_files (DirState.dir [strL "cover.jpg", strL "notes.txt"]) = []
    ∧ validate_path_exists DirState.missing = false
    ∧ validate_path_exists DirState.notADir = true
    ∧ validate_is_directory DirState.notADir = false
    ∧ validate_is_directory (DirState.dir []) = true := by
  refine ⟨rfl, rfl, fun es => rfl, by decide, rfl, rfl, rfl, rfl⟩

/-- Claim C7: a failing file anywhere in the batch is recorded as a
filename-reason pair at its position in the report while every other file
is still processed and counted; concretely, an unreadable file between two
readable ones leaves the two siblings converted and written. -/
theorem C7_batch_isolation :
    (∀ (sp tp : List Char) (xs ys : List ((List Char) × Except (List Char) (List Char)))
        (name msg : List Char) (out0 : (List Char) → Option (List Char)),
        (fix_playlists_batch sp tp (xs ++ (name, Except.error msg) :: ys) out0).errors
          = errSpec xs ++ (name, msg) :: errSpec ys
        ∧ (fix_playlists_batch sp tp (xs ++ (name, Except.error msg) :: ys) out0).succ
          = countOk xs + countOk ys
        ∧ (fix_playlists_batch sp tp (xs ++ (name, Except.error msg) :: ys) out0).err
          = countErr xs + (1 + countErr ys))
    ∧ (fix_playlists_batch (strL "C:/") (strL "../")
          [(strL "a.m3u", Except.ok (strL "C:/x.mp3\n")),
           (strL "b.m3u", Except.error (strL "Permission denied")),
           (strL "c.m3u", Except.ok (strL "C:/y.mp3\n"))] (fun _ => none)).succ = 2
    ∧ (fix_playlists_batch (strL "C:/") (strL "../")
          [(strL "a.m3u", Except.ok (strL "C:/x.mp3\n")),
           (strL "b.m3u", Except.error (strL "Permission denied")),
           (strL "c.m3u", Except.ok (strL "C:/y.mp3\n"))] (fun _ => none)).err = 1
    ∧ (fix_playlists_batch (strL "C:/") (strL "../")
          [(strL "a.m3u", Except.ok (strL "C:/x.mp3\n")),
           (strL "b.m3u", Except.error (strL "Permission denied")),
           (strL "c.m3u", Except.ok (strL "C:/y.mp3\n"))] (fun _ => none)).errors
        = [(strL "b.m3u", strL "Permission denied")]
    ∧ (fix_playlists_batch (strL "C:/") (strL "../")
          [(strL "a.m3u", Except.ok (strL "C:/x.mp3\n")),
           (strL "b.m3u", Except.error (strL "Permission denied")),
           (strL "c.m3u", Except.ok (strL "C:/y.mp3\n"))] (fun _ => none)).out (strL "a.m3u")
        = some (strL "../x.mp3\n")
    ∧ (fix_playlists_batch (strL "C:/") (strL "../")
          [(strL "a.m3u", Except.ok (strL "C:/x.mp3\n")),
           (strL "b.m3u", Except.error (strL "Permission denied")),
           (strL "c.m3u", Except.ok (strL "C:/y.mp3\n"))] (fun _ => none)).out (strL "b.m3u")
        = none
    ∧ (fix_playlists_batch (strL "C:/") (strL "../")
          [(strL "a.m3u", Except.ok (strL "C:/x.mp3\n")),
           (strL "b.m3u", Except.error (strL "Permission denied")),
           (strL "c.m3u", Except.ok (strL "C:/y.mp3\n"))] (fun _ => none)).out (strL "c.m3u")
        = some (strL "../y.mp3\n") := by
  refine ⟨?_, by decide, by decide, by decide, by decide, by decide, by decide⟩
  intro sp tp xs ys name msg out0
  unfold fix_playlists_batch
  refine ⟨?_, ?_, ?_⟩
  · rw [runBatch_errors]
    simp [errSpec_append, errSpec, List.filterMap_cons]
  · rw [runBatch_succ]
    simp [countOk_append, countOk, List.countP_cons]
  · rw [runBatch_err]
    simp [countErr_append, countErr, List.countP_cons]
    omega

/-- Claim C8: the batch result is independent of the prior contents of the
output directory — the report (counts and error list) is identical for any
two initial output states, and the written content of every readable
discovered file is identical as well; hence two runs over byte-identical
inputs with the same configuration produce byte-identical outputs. -/
theorem C8_output_independence :
    (∀ (sp tp : List Char) (files : List ((List Char) × Except (List Char) (List Char)))
        (o1 o2 : (List Char) → Option (List Char)),
        (fix_playlists_batch sp tp files o1).succ = (fix_playlists_batch sp tp files o2).succ
        ∧ (fix_playlists_batch sp tp files o1).err = (fix_playlists_batch sp tp files o2).err
        ∧ (fix_playlists_batch sp tp files o1).errors
          = (fix_playlists_batch sp tp files o2).errors)
    ∧ (∀ (sp tp : List Char) (files : List ((List Char) × Except (List Char) (List Char)))
        (o1 o2 : (List Char) → Option (List Char)) (name c : List Char),
        (name, Except.ok c) ∈ files →
        (fix_playlists_batch sp tp files o1).out name
          = (fix_playlists_batch sp tp files o2).out name) := by
  constructor
  · intro sp tp files o1 o2
    unfold fix_playlists_batch
    exact ⟨by rw [runBatch_succ, runBatch_succ],
           by rw [runBatch_err, runBatch_err],
           by rw [runBatch_errors, runBatch_errors]⟩
  · intro sp tp files o1 o2 name c h
    unfold fix_playlists_batch
    exact runBatch_out_indep sp tp files _ _ name ⟨c, h⟩

/-- Witness for C8: the written file of a one-file batch agrees between an
empty and a polluted initial output directory. -/
theorem C8_output_independence_w :
    (fix_playlists_batch (strL "C:/") (strL "../")
        [(strL "a.m3u", Except.ok (strL "C:/x.mp3\n"))] (fun _ => none)).out (strL "a.m3u")
      = (fix_playlists_batch (strL "C:/") (strL "../")
          [(strL "a.m3u", Except.ok (strL "C:/x.mp3\n"))]
          (fun _ => some (strL "stale"))).out (strL "a.m3u") :=
  C8_output_independence.2 (strL "C:/") (strL "../")
    [(strL "a.m3u", Except.ok (strL "C:/x.mp3\n"))] (fun _ => none)
    (fun _ => some (strL "stale")) (strL "a.m3u") (strL "C:/x.mp3\n")
    (List.mem_singleton.mpr rfl)

/-- Claim C9 counterexample: on a line with a trailing space the preview
strips all whitespace while the engine strips only the line terminator, so
the preview's converted path differs from the engine's output line. -/
theorem C9_preview_cex :
    isDirective (strL "x \n") = false
    ∧ rstripCRLF (strL "x \n") = strL "x "
    ∧ previewLine (strL "C:/") (strL "../") (strL "x \n") = some (strL "x", strL "x")
    ∧ processLine (strL "C:/") (strL "../") (strL "x \n") = (strL "x \n", 1)
    ∧ strL "x" ≠ strL "x " := by
  decide

/-- Claim C9 (amended): on every line whose full whitespace strip agrees
with its terminator strip (no leading or trailing blanks beyond the
terminator), and for a non-empty source path start, the preview and the
engine agree: both produce the same substituted path, the engine merely
appending the canonical newline. -/
theorem C9_preview_engine_agree :
    ∀ sp tp line : List Char, sp ≠ [] → pyStrip line = rstripCRLF line →
      isDirective line = false → rstripCRLF line ≠ [] →
      previewLine sp tp line
          = some (rstripCRLF line, replaceAllCI sp tp (normSlash (rstripCRLF line)))
      ∧ processLine sp tp line
          = (replaceAllCI sp tp (normSlash (rstripCRLF line)) ++ ['\n'], 1) := by
  intro sp tp line h1 h2 h3 h4
  have hemp : (rstripCRLF line).isEmpty = false := by
    cases hr : rstripCRLF line with
    | nil => exact absurd hr h4
    | cons a l => rfl
  constructor
  · have hdir : isDirective (rstripCRLF line) = false := isDirective_rstripCRLF line h3 h4
    simp [previewLine, h2, hdir, hemp]
  · have hsp : sp.isEmpty = false := by
      cases sp with
      | nil => exact absurd rfl h1
      | cons a l => rfl
    simp [processLine, h3, hemp, hsp]

/-- Witness for C9: preview and engine agree on a clean concrete line. -/
theorem C9_preview_engine_agree_w :
    previewLine (strL "C:/") (strL "../") (strL "C:/a.mp3\n")
        = some (rstripCRLF (strL "C:/a.mp3\n"),
            replaceAllCI (strL "C:/") (strL "../") (normSlash (rstripCRLF (strL "C:/a.mp3\n"))))
    ∧ processLine (strL "C:/") (strL "../") (strL "C:/a.mp3\n")
        = (replaceAllCI (strL "C:/") (strL "../")
            (normSlash (rstripCRLF (strL "C:/a.mp3\n"))) ++ ['\n'], 1) :=
  C9_preview_engine_agree (strL "C:/") (strL "../") (strL "C:/a.mp3\n")
    (by decide) (by decide) (by decide) (by decide)

/-- Claim C10: whenever the batch processes a non-empty list of discovered
files, the success count plus the error count equals the number of files,
the error list's length equals the error count, and the error list holds
exactly one filename-reason pair per failed file in processing order. -/
theorem C10_report_invariant :
    ∀ (sp tp : List Char) (files : List ((List Char) × Except (List Char) (List Char)))
      (out0 : (List Char) → Option (List Char)), files ≠ [] →
      (fix_playlists_batch sp tp files out0).succ + (fix_playlists_batch sp tp files out0).err
          = files.length
      ∧ ((fix_playlists_batch sp tp files out0).errors).length
          = (fix_playlists_batch sp tp files out0).err
      ∧ (fix_playlists_batch sp tp files out0).errors = errSpec files := by
  intro sp tp files out0 _
  unfold fix_playlists_batch
  refine ⟨?_, ?_, ?_⟩
  · rw [runBatch_succ, runBatch_err]
    simpa using countOk_add_countErr files
  · rw [runBatch_errors, runBatch_err]
    simpa using errSpec_length files
  · rw [runBatch_errors]
    simp

/-- Witness for C10: the report invariant on a concrete two-file batch. -/
theorem C10_report_invariant_w :
    (fix_playlists_batch (strL "C:/") (strL "../")
        [(strL "a.m3u", Except.ok (strL "C:/x.mp3\n")),
         (strL "b.m3u", Except.error (strL "boom"))] (fun _ => none)).succ
      + (fix_playlists_batch (strL "C:/") (strL "../")
        [(strL "a.m3u", Except.ok (strL "C:/x.mp3\n")),
         (strL "b.m3u", Except.error (strL "boom"))] (fun _ => none)).err
      = ([(strL "a.m3u", Except.ok (strL "C:/x.mp3\n")),
          (strL "b.m3u", Except.error (strL "boom"))] :
          List ((List Char) × Except (List Char) (List Char))).length
    ∧ ((fix_playlists_batch (strL "C:/") (strL "../")
        [(strL "a.m3u", Except.ok (strL "C:/x.mp3\n")),
         (strL "b.m3u", Except.error (strL "boom"))] (fun _ => none)).errors).length
      = (fix_playlists_batch (strL "C:/") (strL "../")
        [(strL "a.m3u", Except.ok (strL "C:/x.mp3\n")),
         (strL "b.m3u", Except.error (strL "boom"))] (fun _ => none)).err
    ∧ (fix_playlists_batch (strL "C:/") (strL "../")
        [(strL "a.m3u", Except.ok (strL "C:/x.mp3\n")),
         (strL "b.m3u", Except.error (strL "boom"))] (fun _ => none)).errors
      = errSpec [(strL "a.m3u", Except.ok (strL "C:/x.mp3\n")),
                 (strL "b.m3u", Except.error (strL "boom"))] :=
  C10_report_invariant (strL "C:/") (strL "../")
    [(strL "a.m3u", Except.ok (strL "C:/x.mp3\n")),
     (strL "b.m3u", Except.error (strL "boom"))] (fun _ => none)
    (List.cons_ne_nil _ _)
